import Mathlib

/-!
# Verification of `nvwa/tree.h`

A shallow embedding of the generic tree class template in `nvwa/tree.h`
and its traversal/destruction utilities, together with proofs of the
specified properties.

A C++ `tree<T>` node holds a value and a `std::vector` of smart pointers
to children; a child slot may be null (an absent placeholder).  We embed
a node as `Tree α` with a `List (Option (Tree α))` of child slots; a
present slot `some t` models a non-null smart pointer owning subtree `t`,
and `none` models a null placeholder.  Smart-pointer moves become value
moves; a node that is popped or overwritten is released.
-/

namespace Nvwa

/-- A tree node: a value together with the ordered sequence of child
slots (`_M_value` and `_M_children` in `tree.h`).  `none` is a null
(absent) child slot. -/
inductive Tree (α : Type) where
  | node : α → List (Option (Tree α)) → Tree α
  deriving Repr

/-- A children sequence (`children_type` in `tree.h`). -/
abbrev Forest (α : Type) := List (Option (Tree α))

namespace Tree

/-- Embeds `tree::value()`. -/
def val : Tree α → α
  | node v _ => v

/-- The `_M_children` member. -/
def children : Tree α → Forest α
  | node _ cs => cs

@[simp] theorem val_node (v : α) (cs : Forest α) : (node v cs).val = v := rfl

@[simp] theorem children_node (v : α) (cs : Forest α) :
    (node v cs).children = cs := rfl

theorem node_val_children (t : Tree α) : node t.val t.children = t := by
  cases t
  rfl

/-- Embeds `tree::child_count()`: the size of the children vector. -/
def childCount (t : Tree α) : Nat := t.children.length

/-- Embeds `tree::has_child()`: whether the children vector is non-empty. -/
def hasChild (t : Tree α) : Bool := !t.children.isEmpty

/-- Embeds `tree::child(index)`: unchecked indexed access `_M_children[index]`,
embedded as an optional lookup so that in-bounds accesses are visibly
well defined. -/
def childAt (t : Tree α) (i : Nat) : Option (Option (Tree α)) :=
  t.children[i]?

/-- Embeds `tree::push_back(ptr)`: append a child slot. -/
def pushBack (t : Tree α) (p : Option (Tree α)) : Tree α :=
  node t.val (t.children ++ [p])

/-- Embeds `tree::pop_back()`: remove the last child slot (precondition:
non-empty). -/
def popBack (t : Tree α) : Tree α :=
  node t.val t.children.dropLast

end Tree

/-! ## Node counting

`nodesT t` counts the tree nodes of a subtree (the root plus all present
descendants); this is the number of allocations owned through the root
handle, used to express "every descendant has been released". -/

mutual

/-- Number of nodes in a subtree (the node itself plus all present
descendants). -/
def nodesT : Tree α → Nat
  | .node _ cs => 1 + nodesF cs

/-- Number of nodes owned through a child slot (0 for a null slot). -/
def nodesO : Option (Tree α) → Nat
  | none => 0
  | some t => nodesT t

/-- Number of nodes owned through a children sequence. -/
def nodesF : Forest α → Nat
  | [] => 0
  | c :: cs => nodesO c + nodesF cs

end

@[simp] theorem nodesT_node (v : α) (cs : Forest α) :
    nodesT (Tree.node v cs) = 1 + nodesF cs := by
  rw [nodesT]

@[simp] theorem nodesO_none : nodesO (none : Option (Tree α)) = 0 := by
  rw [nodesO]

@[simp] theorem nodesO_some (t : Tree α) : nodesO (some t) = nodesT t := by
  rw [nodesO]

@[simp] theorem nodesF_nil : nodesF ([] : Forest α) = 0 := by
  rw [nodesF]

@[simp] theorem nodesF_cons (c : Option (Tree α)) (cs : Forest α) :
    nodesF (c :: cs) = nodesO c + nodesF cs := by
  rw [nodesF]

theorem nodesT_pos (t : Tree α) : 0 < nodesT t := by
  cases t with
  | node v cs => simp

theorem nodesF_append (cs ds : Forest α) :
    nodesF (cs ++ ds) = nodesF cs + nodesF ds := by
  induction cs with
  | nil => simp
  | cons c cs ih => simp [ih, Nat.add_assoc]

/-! ## Slot counting

`slotsF cs` counts all child slots (present or null) reachable from a
children sequence.  Each pass of the inner loops of
`tree::remove_children` pops exactly one slot, so this is the loop
variant for the iterative destruction. -/

mutual

/-- Slots in a subtree (not counting the slot holding the subtree
itself). -/
def slotsT : Tree α → Nat
  | .node _ cs => slotsF cs

/-- Slots owned through one child slot: the slot itself plus, when
present, the slots of the subtree it holds. -/
def slotsO : Option (Tree α) → Nat
  | none => 1
  | some t => 1 + slotsT t

/-- Slots owned through a children sequence. -/
def slotsF : Forest α → Nat
  | [] => 0
  | c :: cs => slotsO c + slotsF cs

end

@[simp] theorem slotsT_node (v : α) (cs : Forest α) :
    slotsT (Tree.node v cs) = slotsF cs := by
  rw [slotsT]

@[simp] theorem slotsO_none : slotsO (none : Option (Tree α)) = 1 := by
  rw [slotsO]

@[simp] theorem slotsO_some (t : Tree α) : slotsO (some t) = 1 + slotsT t := by
  rw [slotsO]

@[simp] theorem slotsF_nil : slotsF ([] : Forest α) = 0 := by
  rw [slotsF]

@[simp] theorem slotsF_cons (c : Option (Tree α)) (cs : Forest α) :
    slotsF (c :: cs) = slotsO c + slotsF cs := by
  rw [slotsF]

/-! ## `tree::remove_children`

The C++ code keeps a pointer `children_ptr` to "the children sequence
currently being drained": it descends along `back()` while the last
slot is a present child that itself has children, then calls
`pop_back()` there.  One round of the inner loops therefore pops exactly
one slot, at the end of the last-present-child chain.  `popStepF`
embeds that one round as a function on the targeted children sequence;
`drain` iterates it until the sequence is empty, exactly as the outer
`while (has_child())` / `while (!children_ptr->empty())` loops do. -/

mutual

/-- One pop round of `remove_children` applied to a children sequence:
descend along the last slot while it is a present child with children,
then pop the last slot there. -/
def popStepF : Forest α → Forest α
  | [] => []
  | [c] => popStepO c
  | c :: c2 :: cs => c :: popStepF (c2 :: cs)

/-- One pop round when the last slot of the sequence is `c`: a null slot or
a childless child is popped (yielding no replacement), a child with
children is descended into. -/
def popStepO : Option (Tree α) → Forest α
  | none => []
  | some t => popStepT t

/-- One pop round inside the last child `t`: if `t` has no children it
is popped itself; otherwise the pop happens inside `t.children`. -/
def popStepT : Tree α → Forest α
  | .node v cs =>
    match cs with
    | [] => []
    | c :: cs => [some (.node v (popStepF (c :: cs)))]

end

@[simp] theorem popStepF_nil : popStepF ([] : Forest α) = [] := by
  rw [popStepF]

theorem popStepF_single (c : Option (Tree α)) : popStepF [c] = popStepO c := by
  rw [popStepF]

theorem popStepF_cons2 (c c2 : Option (Tree α)) (cs : Forest α) :
    popStepF (c :: c2 :: cs) = c :: popStepF (c2 :: cs) := by
  rw [popStepF]

/-- Each pop round removes exactly one slot. -/
theorem slotsF_popStepF :
    ∀ cs : Forest α, cs ≠ [] → slotsF (popStepF cs) + 1 = slotsF cs := by
  have key : ∀ n : Nat,
      (∀ cs : Forest α, slotsF cs ≤ n → cs ≠ [] →
        slotsF (popStepF cs) + 1 = slotsF cs) := by
    intro n
    induction n with
    | zero =>
      intro cs hle hne
      cases cs with
      | nil => exact absurd rfl hne
      | cons c cs =>
        exfalso
        have : 1 ≤ slotsO c := by
          cases c with
          | none => simp
          | some t => simp
        simp only [slotsF_cons] at hle
        omega
    | succ n ih =>
      intro cs hle hne
      match cs with
      | [c] =>
        rw [popStepF_single]
        cases c with
        | none => simp [popStepO]
        | some t =>
          rw [popStepO]
          cases t with
          | node v cs =>
            cases cs with
            | nil => simp [popStepT]
            | cons c2 cs2 =>
              rw [popStepT]
              simp only [slotsF_cons, slotsF_nil, slotsO_some, slotsT_node,
                slotsO_none] at *
              have hrec : slotsF (popStepF (c2 :: cs2)) + 1
                  = slotsF (c2 :: cs2) := by
                apply ih
                · simp only [slotsF_cons]; omega
                · simp
              simp only [slotsF_cons] at hrec
              omega
      | c :: c2 :: cs2 =>
        rw [popStepF_cons2]
        simp only [slotsF_cons] at *
        have hrec : slotsF (popStepF (c2 :: cs2)) + 1 = slotsF (c2 :: cs2) := by
          apply ih
          · have : 1 ≤ slotsO c := by
              cases c with
              | none => simp
              | some t => simp
            simp only [slotsF_cons]
            omega
          · simp
        simp only [slotsF_cons] at hrec
        omega
  intro cs
  exact key (slotsF cs) cs (Nat.le_refl _)

/-- The outer loops of `remove_children`: keep performing pop rounds
until the targeted children sequence is empty. -/
def drain : Forest α → Forest α
  | [] => []
  | c :: cs => drain (popStepF (c :: cs))
termination_by cs => slotsF cs
decreasing_by
  have h := slotsF_popStepF (c :: cs) (by simp)
  omega

/-- Embeds `tree::remove_children()` applied to a node. -/
def removeChildren (t : Tree α) : Tree α :=
  Tree.node t.val (drain t.children)

/-- The loop `drain` always reaches the empty sequence. -/
theorem drain_eq_nil (cs : Forest α) : drain cs = [] := by
  have key : ∀ n : Nat, ∀ cs : Forest α, slotsF cs ≤ n → drain cs = [] := by
    intro n
    induction n with
    | zero =>
      intro cs hle
      cases cs with
      | nil => rw [drain]
      | cons c cs =>
        exfalso
        have : 1 ≤ slotsO c := by
          cases c with
          | none => simp
          | some t => simp
        simp only [slotsF_cons] at hle
        omega
    | succ n ih =>
      intro cs hle
      cases cs with
      | nil => rw [drain]
      | cons c cs =>
        rw [drain]
        apply ih
        have h := slotsF_popStepF (c :: cs) (by simp)
        omega
  exact key (slotsF cs) cs (Nat.le_refl _)

/-! ## The legacy static `tree::destroy`

`destroy(ptr)` moves `ptr` into a local `current` (leaving `ptr` null)
and loops while `current` is non-null, maintaining a second local
`parent`.  Each loop iteration is embedded as `destroyStep` on the pair
`(current, parent)`; a node that is overwritten or dropped is released.
The algorithm rotates subtrees during teardown and is only valid when
every node has at most two children. -/

/-- The two locals of `tree::destroy`: `current` and `parent`. -/
structure DState (α : Type) where
  current : Option (Tree α)
  parent  : Option (Tree α)

/-- Embeds `tree::avoid_sole`: pad a one-slot children sequence to two slots. -/
def padSole (cs : Forest α) : Forest α :=
  if cs.length = 1 then cs ++ [none] else cs

/-- Embeds `tree::remove_null_but_avoid_sole`: erase the null slots, then pad a
sole survivor. -/
def removeNullPad (cs : Forest α) : Forest α :=
  padSole (cs.filter (fun o => o.isSome))

/-- The subtree transform of `destroy` when `parent` is non-null with a
non-null second child: move the children of `current` past index 1 to
the end of the children of `parent` (leaving moved-from null slots
behind), pad, move the second child of `current` into the first slot of
`parent`, and hang `parent` as the second child of `current`.  The old
first child of `parent`
(asserted null in the source) is overwritten and released. -/
def rotateStep (c p : Tree α) : Tree α :=
  let cs0 := c.children
  let cs1 := if 2 < cs0.length
    then cs0.take 2 ++ List.replicate (cs0.length - 2) none else cs0
  let pcs := if 2 < cs0.length then p.children ++ cs0.drop 2 else p.children
  let cs2 := padSole cs1
  let p2 := Tree.node p.val (pcs.set 0 (cs2.getD 1 none))
  Tree.node c.val (cs2.set 1 (some p2))

/-- The tail of a `destroy` iteration (the code after `// Now parent is
null`), parametrized by the value and children of the node: descend into a
present first child, else move to the only right child of a two-slot
sequence, else erase null slots. -/
def stepDownCS (v : α) : Forest α → DState α
  | [] => ⟨some (.node v []), none⟩
  | some l :: rest => ⟨some l, some (.node v (none :: rest))⟩
  | none :: rest =>
    if rest.length = 1 then ⟨rest.getD 0 none, none⟩
    else ⟨some (.node v (removeNullPad (none :: rest))), none⟩

/-- The tail of a `destroy` iteration applied to the current node. -/
def stepDown (c : Tree α) : DState α := stepDownCS c.val c.children

/-- One iteration of the `while (current)` loop of `tree::destroy`. -/
def destroyStep (s : DState α) : DState α :=
  match s.current with
  | none => s
  | some c =>
    if c.children.isEmpty then
      -- Remove current node and go up
      ⟨s.parent, none⟩
    else
      match s.parent with
      | none => stepDown c
      | some p =>
        if 1 < p.children.length ∧ (p.children.getD 1 none).isSome then
          stepDown (rotateStep c p)
        else
          -- Safe to remove parent, as its children are null
          stepDown c

/-! ### The at-most-two-children shape -/

mutual

/-- Every node of the subtree has at most two child slots. -/
def binT : Tree α → Bool
  | .node _ cs => decide (cs.length ≤ 2) && binF cs

/-- Predicate `binT` through a child slot. -/
def binO : Option (Tree α) → Bool
  | none => true
  | some t => binT t

/-- Predicate `binT` through a children sequence. -/
def binF : Forest α → Bool
  | [] => true
  | c :: cs => binO c && binF cs

end

@[simp] theorem binT_node (v : α) (cs : Forest α) :
    binT (Tree.node v cs) = (decide (cs.length ≤ 2) && binF cs) := by
  rw [binT]

@[simp] theorem binO_none : binO (none : Option (Tree α)) = true := by
  rw [binO]

@[simp] theorem binO_some (t : Tree α) : binO (some t) = binT t := by
  rw [binO]

@[simp] theorem binF_nil : binF ([] : Forest α) = true := by
  rw [binF]

@[simp] theorem binF_cons (c : Option (Tree α)) (cs : Forest α) :
    binF (c :: cs) = (binO c && binF cs) := by
  rw [binF]

/-- Both locals of `destroy` hold at-most-binary trees. -/
def binState (s : DState α) : Bool := binO s.current && binO s.parent

/-! ### Measure for the `destroy` loop -/

/-- Total live nodes held by the two locals. -/
def dTotal (s : DState α) : Nat := nodesO s.current + nodesO s.parent

/-- Nodes held by `current`. -/
def dCur (s : DState α) : Nat := nodesO s.current

/-- Null slots among the top-level children of `current`. -/
def dNulls (s : DState α) : Nat :=
  match s.current with
  | none => 0
  | some c => c.children.countP (fun o => o.isNone)

/-- Lexicographic order on the triple measure of a `destroy` state. -/
def lex3 (a b : Nat × Nat × Nat) : Prop :=
  a.1 < b.1 ∨ (a.1 = b.1 ∧ (a.2.1 < b.2.1 ∨ (a.2.1 = b.2.1 ∧ a.2.2 < b.2.2)))

/-- The measure triple of a `destroy` state. -/
def dMeasure (s : DState α) : Nat × Nat × Nat := (dTotal s, dCur s, dNulls s)

theorem lex3_wf : WellFounded (@lex3) := by
  have h : @lex3 = InvImage
      (Prod.Lex (· < ·) (Prod.Lex (· < ·) (· < ·)))
      (fun a => a) := by
    funext a b
    cases a with
    | mk a1 a2 =>
      cases a2 with
      | mk a21 a22 =>
        cases b with
        | mk b1 b2 =>
          cases b2 with
          | mk b21 b22 =>
            simp only [lex3, InvImage, Prod.lex_def]
  rw [h]
  exact InvImage.wf _
    ((Nat.lt_wfRel.wf).prod_lex ((Nat.lt_wfRel.wf).prod_lex Nat.lt_wfRel.wf))

@[simp] theorem dTotal_mk (c p : Option (Tree α)) :
    dTotal ⟨c, p⟩ = nodesO c + nodesO p := rfl

@[simp] theorem dCur_mk (c p : Option (Tree α)) :
    dCur ⟨c, p⟩ = nodesO c := rfl

@[simp] theorem binState_mk (c p : Option (Tree α)) :
    binState ⟨c, p⟩ = (binO c && binO p) := rfl

/-- The iteration tail of `destroy` on a non-empty at-most-binary
children sequence: it never grows the node total, and when the total is
preserved it either descends into the present first child or erases the
null slot of a `[null]` sequence. -/
theorem stepDownCS_spec (v : α) (cs : Forest α)
    (hbin : binT (Tree.node v cs) = true) (hne : cs ≠ []) :
    binState (stepDownCS v cs) = true ∧
    ((stepDownCS v cs).current = none → (stepDownCS v cs).parent = none) ∧
    (dTotal (stepDownCS v cs) < 1 + nodesF cs ∨
      (dTotal (stepDownCS v cs) = 1 + nodesF cs ∧
        ((∃ l rest, cs = some l :: rest ∧
            (stepDownCS v cs).current = some l) ∨
          (cs = [none] ∧
            stepDownCS v cs = ⟨some (Tree.node v []), none⟩)))) := by
  simp only [binT_node, Bool.and_eq_true, decide_eq_true_eq] at hbin
  obtain ⟨hlen, hF⟩ := hbin
  match cs with
  | [] => exact absurd rfl hne
  | [some l] =>
    simp only [binF_cons, binF_nil, binO_some, Bool.and_eq_true] at hF
    refine ⟨?_, ?_, ?_⟩
    · simp [stepDownCS, hF.1]
    · simp [stepDownCS]
    · right
      refine ⟨by simp [stepDownCS]; omega, Or.inl ⟨l, [], rfl, by simp [stepDownCS]⟩⟩
  | [none] =>
    refine ⟨?_, ?_, ?_⟩
    · simp [stepDownCS, removeNullPad, padSole]
    · simp [stepDownCS, removeNullPad, padSole]
    · right
      refine ⟨by simp [stepDownCS, removeNullPad, padSole], Or.inr ⟨rfl, ?_⟩⟩
      simp [stepDownCS, removeNullPad, padSole]
  | [some l, x] =>
    simp only [binF_cons, binF_nil, binO_some, Bool.and_eq_true] at hF
    refine ⟨?_, ?_, ?_⟩
    · simp [stepDownCS, hF.1, hF.2.1]
    · simp [stepDownCS]
    · right
      refine ⟨by simp [stepDownCS]; omega,
        Or.inl ⟨l, [x], rfl, by simp [stepDownCS]⟩⟩
  | [none, x] =>
    simp only [binF_cons, binF_nil, Bool.and_eq_true] at hF
    refine ⟨?_, ?_, ?_⟩
    · simp [stepDownCS, hF.2.1]
    · simp [stepDownCS]
    · left
      simp [stepDownCS]
  | c0 :: c1 :: c2 :: rest =>
    exfalso
    simp at hlen

@[simp] theorem dNulls_some (c : Tree α) (p : Option (Tree α)) :
    dNulls ⟨some c, p⟩ = c.children.countP (fun o => o.isNone) := rfl

@[simp] theorem dNulls_none (p : Option (Tree α)) :
    dNulls ⟨none, p⟩ = 0 := rfl

theorem lex3_of_fst {a b : Nat × Nat × Nat} (h : a.1 < b.1) : lex3 a b :=
  Or.inl h

theorem lex3_of_snd {a b : Nat × Nat × Nat} (h1 : a.1 = b.1)
    (h : a.2.1 < b.2.1) : lex3 a b :=
  Or.inr ⟨h1, Or.inl h⟩

theorem lex3_of_trd {a b : Nat × Nat × Nat} (h1 : a.1 = b.1)
    (h2 : a.2.1 = b.2.1) (h : a.2.2 < b.2.2) : lex3 a b :=
  Or.inr ⟨h1, Or.inr ⟨h2, h⟩⟩

/-- The `destroy` rotation on a one-slot current and a two-slot parent. -/
theorem rotateStep_len1 (v w : α) (c0 p0 p1 : Option (Tree α)) :
    rotateStep (Tree.node v [c0]) (Tree.node w [p0, p1]) =
      Tree.node v [c0, some (Tree.node w [none, p1])] := by
  simp [rotateStep, padSole]

/-- The `destroy` rotation on a two-slot current and a two-slot parent. -/
theorem rotateStep_len2 (v w : α) (c0 c1 p0 p1 : Option (Tree α)) :
    rotateStep (Tree.node v [c0, c1]) (Tree.node w [p0, p1]) =
      Tree.node v [c0, some (Tree.node w [c1, p1])] := by
  simp [rotateStep, padSole]

/-- One `destroy` iteration on an at-most-binary state: it preserves the
shape invariant, only exits to a state with both locals null, and
strictly decreases the lexicographic measure. -/
theorem destroyStep_spec (s : DState α) (c : Tree α)
    (hc : s.current = some c) (hbin : binState s = true) :
    binState (destroyStep s) = true ∧
    ((destroyStep s).current = none → (destroyStep s).parent = none) ∧
    lex3 (dMeasure (destroyStep s)) (dMeasure s) := by
  obtain ⟨cur, par⟩ := s
  obtain rfl : cur = some c := hc
  obtain ⟨v, cs⟩ := c
  simp only [binState_mk, Bool.and_eq_true, binO_some] at hbin
  obtain ⟨hbc, hbp⟩ := hbin
  by_cases hcs : cs = []
  · subst hcs
    have hstep : destroyStep (⟨some (Tree.node v []), par⟩ : DState α)
        = ⟨par, none⟩ := by
      simp [destroyStep]
    rw [hstep]
    refine ⟨by simp [hbp], fun _ => rfl, ?_⟩
    apply lex3_of_fst
    simp [dMeasure]
  · have hne : (Tree.node v cs).children.isEmpty = false := by
      simpa using hcs
    cases par with
    | none =>
      have hstep : destroyStep (⟨some (Tree.node v cs), none⟩ : DState α)
          = stepDownCS v cs := by
        simp [destroyStep, hne, stepDown, hcs]
      rw [hstep]
      obtain ⟨hb1, hb2, hb3⟩ := stepDownCS_spec v cs hbc hcs
      refine ⟨hb1, hb2, ?_⟩
      rcases hb3 with hlt | ⟨heq, hrest⟩
      · apply lex3_of_fst
        simp only [dMeasure, dTotal_mk, nodesO_some, nodesO_none, nodesT_node]
        omega
      · rcases hrest with ⟨l, rest, hcsl, hcur⟩ | ⟨hcs1, hsd⟩
        · apply lex3_of_snd
          · simp only [dMeasure, dTotal_mk, nodesO_some, nodesO_none,
              nodesT_node]
            omega
          · have hdc : dCur (stepDownCS v cs) = nodesT l := by
              simp [dCur, hcur]
            subst hcsl
            simp only [dMeasure, dCur_mk, nodesO_some, nodesT_node,
              nodesF_cons, nodesO_some, hdc]
            have := nodesT_pos l
            omega
        · subst hcs1
          rw [hsd]
          apply lex3_of_trd
          · simp [dMeasure]
          · simp [dMeasure]
          · simp [dMeasure, List.countP_cons, List.countP_nil]
    | some p =>
      obtain ⟨w, ps⟩ := p
      have hstep : destroyStep
          (⟨some (Tree.node v cs), some (Tree.node w ps)⟩ : DState α)
          = if 1 < ps.length ∧ (ps.getD 1 none).isSome
            then stepDown (rotateStep (Tree.node v cs) (Tree.node w ps))
            else stepDown (Tree.node v cs) := by
        simp [destroyStep, hne, hcs]
      rw [hstep]
      by_cases hcond : 1 < ps.length ∧ (ps.getD 1 none).isSome
      · rw [if_pos hcond]
        simp only [binO_some, binT_node, Bool.and_eq_true,
          decide_eq_true_eq] at hbp
        obtain ⟨hplen, hpF⟩ := hbp
        rcases ps with _ | ⟨p0, _ | ⟨p1, _ | ⟨p2x, ps2⟩⟩⟩
        · exfalso; have h1 := hcond.1; simp at h1
        · exfalso; have h1 := hcond.1; simp at h1
        · cases p1 with
          | none => exfalso; have h2 := hcond.2; simp at h2
          | some q =>
            simp only [binF_cons, binF_nil, Bool.and_eq_true, binO_some,
              and_true] at hpF
            simp only [binT_node, Bool.and_eq_true, decide_eq_true_eq] at hbc
            obtain ⟨hclen, hcF⟩ := hbc
            rcases cs with _ | ⟨c0, _ | ⟨c1, _ | ⟨c2x, cs2⟩⟩⟩
            · exact absurd rfl hcs
            · -- current has one child slot
              rw [rotateStep_len1]
              simp only [binF_cons, binF_nil, Bool.and_eq_true,
                and_true] at hcF
              cases c0 with
              | some l =>
                have hsd : stepDown
                    (Tree.node v [some l,
                      some (Tree.node w [none, some q])]) =
                    ⟨some l, some (Tree.node v [none,
                      some (Tree.node w [none, some q])])⟩ := by
                  simp [stepDown, stepDownCS]
                rw [hsd]
                refine ⟨?_, by simp, ?_⟩
                · simp only [binO_some] at hcF
                  simp [hcF, hpF.2]
                · cases p0 with
                  | none =>
                    apply lex3_of_snd
                    · simp only [dMeasure, dTotal_mk, nodesO_some,
                        nodesO_none, nodesT_node, nodesF_cons, nodesF_nil]
                      omega
                    · simp only [dMeasure, dCur_mk, nodesO_some,
                        nodesT_node, nodesF_cons, nodesF_nil, nodesO_none]
                      have := nodesT_pos l
                      omega
                  | some pt =>
                    apply lex3_of_fst
                    simp only [dMeasure, dTotal_mk, nodesO_some,
                      nodesO_none, nodesT_node, nodesF_cons, nodesF_nil]
                    have := nodesT_pos pt
                    omega
              | none =>
                have hsd : stepDown
                    (Tree.node v [none,
                      some (Tree.node w [none, some q])]) =
                    ⟨some (Tree.node w [none, some q]), none⟩ := by
                  simp [stepDown, stepDownCS]
                rw [hsd]
                refine ⟨by simp [hpF.2], by simp, ?_⟩
                apply lex3_of_fst
                simp only [dMeasure, dTotal_mk, nodesO_some, nodesO_none,
                  nodesT_node, nodesF_cons, nodesF_nil]
                omega
            · -- current has two child slots
              rw [rotateStep_len2]
              simp only [binF_cons, binF_nil, Bool.and_eq_true,
                and_true] at hcF
              cases c0 with
              | some l =>
                have hsd : stepDown
                    (Tree.node v [some l,
                      some (Tree.node w [c1, some q])]) =
                    ⟨some l, some (Tree.node v [none,
                      some (Tree.node w [c1, some q])])⟩ := by
                  simp [stepDown, stepDownCS]
                rw [hsd]
                refine ⟨?_, by simp, ?_⟩
                · simp only [binO_some] at hcF
                  simp [hcF.1, hcF.2, hpF.2]
                · cases p0 with
                  | none =>
                    apply lex3_of_snd
                    · simp only [dMeasure, dTotal_mk, nodesO_some,
                        nodesO_none, nodesT_node, nodesF_cons, nodesF_nil]
                      omega
                    · simp only [dMeasure, dCur_mk, nodesO_some,
                        nodesT_node, nodesF_cons, nodesF_nil, nodesO_none]
                      have := nodesT_pos l
                      omega
                  | some pt =>
                    apply lex3_of_fst
                    simp only [dMeasure, dTotal_mk, nodesO_some,
                      nodesO_none, nodesT_node, nodesF_cons, nodesF_nil]
                    have := nodesT_pos pt
                    omega
              | none =>
                have hsd : stepDown
                    (Tree.node v [none,
                      some (Tree.node w [c1, some q])]) =
                    ⟨some (Tree.node w [c1, some q]), none⟩ := by
                  simp [stepDown, stepDownCS]
                rw [hsd]
                refine ⟨by simp [hcF.2, hpF.2], by simp, ?_⟩
                apply lex3_of_fst
                simp only [dMeasure, dTotal_mk, nodesO_some, nodesO_none,
                  nodesT_node, nodesF_cons, nodesF_nil]
                omega
            · exfalso
              simp at hclen
        · exfalso
          simp at hplen
      · rw [if_neg hcond]
        obtain ⟨hb1, hb2, hb3⟩ := stepDownCS_spec v cs hbc hcs
        have hsd : stepDown (Tree.node v cs) = stepDownCS v cs := rfl
        rw [hsd]
        refine ⟨hb1, hb2, ?_⟩
        apply lex3_of_fst
        have hle : dTotal (stepDownCS v cs) ≤ 1 + nodesF cs := by
          rcases hb3 with hlt | ⟨heq, _⟩
          · omega
          · omega
        simp only [dMeasure, dTotal_mk, nodesO_some, nodesT_node]
        have := nodesT_pos (Tree.node w ps)
        simp only [nodesT_node] at this
        omega

/-- The `destroy` loop reaches the all-null state from any at-most-binary
state whose exhausted form is already all-null. -/
theorem destroy_run_aux (m : Nat × Nat × Nat) :
    ∀ s : DState α, dMeasure s = m → binState s = true →
      (s.current = none → s.parent = none) →
      ∃ n, destroyStep^[n] s = ⟨none, none⟩ := by
  refine @WellFounded.induction _ _ lex3_wf
    (fun m => ∀ s : DState α, dMeasure s = m → binState s = true →
      (s.current = none → s.parent = none) →
      ∃ n, destroyStep^[n] s = ⟨none, none⟩) m ?_
  intro m ih s hm hbin hnp
  cases hcur : s.current with
  | none =>
    refine ⟨0, ?_⟩
    have hp := hnp hcur
    obtain ⟨c, p⟩ := s
    simp only at hcur hp
    subst hcur
    subst hp
    rfl
  | some c =>
    obtain ⟨hb1, hb2, hb3⟩ := destroyStep_spec s c hcur hbin
    rw [hm] at hb3
    obtain ⟨n, hn⟩ := ih (dMeasure (destroyStep s)) hb3 (destroyStep s)
      rfl hb1 hb2
    exact ⟨n + 1, by rw [Function.iterate_succ_apply]; exact hn⟩

/-- Dropping a root handle (its destructor runs; with empty children the
node alone is released): the handle variable becomes absent. -/
def dropHandle (_t : Tree α) : Option (Tree α) := none

/-- The final handle state of the alternative teardown: call
`remove_children()` on the root, then drop the root handle. -/
def removeThenDrop (t : Tree α) : Option (Tree α) :=
  dropHandle (removeChildren t)

/-! ## Traversal iterations

Each iterator of `tree.h` is a small state machine; we embed the state
reachable after the constructor and fold `operator*`/`operator++` into a
"run" function producing the full visited value sequence.  Smart-pointer
dereferences `&*child` become the subtree values themselves. -/

/-- The present (non-null) children of a node, in order: the pointers
the breadth-first `operator++` pushes onto `_M_next_level`. -/
def presentChildren (t : Tree α) : List (Tree α) := t.children.filterMap id

/-- Nodes in a list of trees. -/
def nodesL : List (Tree α) → Nat
  | [] => 0
  | t :: ts => nodesT t + nodesL ts

@[simp] theorem nodesL_nil : nodesL ([] : List (Tree α)) = 0 := by
  rw [nodesL]

@[simp] theorem nodesL_cons (t : Tree α) (ts : List (Tree α)) :
    nodesL (t :: ts) = nodesT t + nodesL ts := by
  rw [nodesL]

theorem nodesL_append (ts us : List (Tree α)) :
    nodesL (ts ++ us) = nodesL ts + nodesL us := by
  induction ts with
  | nil => simp
  | cons t ts ih => simp [ih]; omega

theorem nodesL_presentChildren (t : Tree α) :
    nodesL (presentChildren t) = nodesF t.children := by
  rw [presentChildren]
  induction t.children with
  | nil => simp
  | cons c cs ih =>
    cases c with
    | none => simpa using ih
    | some u => simp [ih]

/-! ### Breadth-first iteration

State after visiting some node: `rem` is `_M_current .. _M_this_level.end()`
and `nl` is `_M_next_level`.  `operator++` pushes the present children of
the current node onto `nl`, advances, and swaps in `nl` when the current
level is exhausted; `empty()` (the end condition) is `rem = []`. -/

/-- The values visited by the breadth-first iterator from a given state
(the current node not yet consumed). -/
def bfsRun : List (Tree α) → List (Tree α) → List α
  | [], _ => []
  | [t], nl => t.val :: bfsRun (nl ++ presentChildren t) []
  | t :: r :: rs, nl => t.val :: bfsRun (r :: rs) (nl ++ presentChildren t)
termination_by rem nl => nodesL rem + nodesL nl
decreasing_by
  all_goals
    have h1 := nodesL_presentChildren t
    have h2 : nodesT t = 1 + nodesF t.children := by
      cases t with
      | node v cs => simp
    simp only [nodesL_append, nodesL_cons, nodesL_nil]
    omega

/-- The full breadth-first visit of a tree:
`breadth_first_iteration(root)` starts with `_M_this_level = {root}`. -/
def bfsVisit (t : Tree α) : List α := bfsRun [t] []

/-- One level down: the present children of every node of a level, in
order (grandchildren grouped by parent). -/
def childrenLevel : List (Tree α) → List (Tree α)
  | [] => []
  | t :: ts => presentChildren t ++ childrenLevel ts

@[simp] theorem childrenLevel_nil : childrenLevel ([] : List (Tree α)) = [] := by
  rw [childrenLevel]

@[simp] theorem childrenLevel_cons (t : Tree α) (ts : List (Tree α)) :
    childrenLevel (t :: ts) = presentChildren t ++ childrenLevel ts := by
  rw [childrenLevel]

theorem nodesL_childrenLevel_lt (t : Tree α) (ts : List (Tree α)) :
    nodesL (childrenLevel (t :: ts)) < nodesL (t :: ts) := by
  induction ts generalizing t with
  | nil =>
    simp only [childrenLevel_cons, childrenLevel_nil, nodesL_cons,
      nodesL_nil, List.append_nil, nodesL_presentChildren]
    cases t with
    | node v cs => simp
  | cons u us ih =>
    have h1 := ih u
    simp only [childrenLevel_cons, nodesL_cons, nodesL_append] at *
    have h2 := nodesL_presentChildren t
    cases t with
    | node v cs =>
      simp only [nodesT_node] at *
      rw [Tree.children_node] at h2
      omega

/-- Modelled from the spec: the level-by-level visit order — the values of
a level left to right, then the next level (present children grouped by
parent), starting from the singleton level of the root. -/
def levelOrder : List (Tree α) → List α
  | [] => []
  | t :: ts => (t :: ts).map Tree.val ++ levelOrder (childrenLevel (t :: ts))
termination_by ts => nodesL ts
decreasing_by
  exact nodesL_childrenLevel_lt t ts

/-! ### Weights for the stack-based iterators -/

mutual

/-- Weight of a tree for iterator termination. -/
def wT : Tree α → Nat
  | .node _ cs => 3 + wF cs

/-- Weight of a child slot. -/
def wO : Option (Tree α) → Nat
  | none => 1
  | some t => wT t

/-- Weight of a children sequence. -/
def wF : Forest α → Nat
  | [] => 0
  | c :: cs => wO c + wF cs

end

@[simp] theorem wT_node (v : α) (cs : Forest α) :
    wT (Tree.node v cs) = 3 + wF cs := by
  rw [wT]

@[simp] theorem wO_none : wO (none : Option (Tree α)) = 1 := by
  rw [wO]

@[simp] theorem wO_some (t : Tree α) : wO (some t) = wT t := by
  rw [wO]

@[simp] theorem wF_nil : wF ([] : Forest α) = 0 := by
  rw [wF]

@[simp] theorem wF_cons (c : Option (Tree α)) (cs : Forest α) :
    wF (c :: cs) = wO c + wF cs := by
  rw [wF]

/-! ### Depth-first (pre-order) iteration

The iterator keeps `_M_current` and a stack of `(next, end)` child-range
pairs; a frame is embedded as the list of child slots not yet consumed.
`dfsRun` produces the values still to be visited given the stack after
the children of the current node were pushed. -/

/-- Weight of a depth-first stack. -/
def dfsW : List (Forest α) → Nat
  | [] => 0
  | f :: stk => wF f + 1 + dfsW stk

@[simp] theorem dfsW_nil : dfsW ([] : List (Forest α)) = 0 := by
  rw [dfsW]

@[simp] theorem dfsW_cons (f : Forest α) (stk : List (Forest α)) :
    dfsW (f :: stk) = wF f + 1 + dfsW stk := by
  rw [dfsW]

/-- The values the depth-first iterator still yields: pop exhausted
frames, skip null slots, and on a present slot yield the node and push
its (non-empty) children range. -/
def dfsRun : List (Forest α) → List α
  | [] => []
  | [] :: stk => dfsRun stk
  | (none :: rest) :: stk => dfsRun (rest :: stk)
  | (some t :: rest) :: stk =>
    t.val :: (if t.children.isEmpty then dfsRun (rest :: stk)
      else dfsRun (t.children :: rest :: stk))
termination_by stk => dfsW stk
decreasing_by
  all_goals
    first
    | (simp only [dfsW_cons, wF_nil, wF_cons, wO_none, wO_some]; omega)
    | (have h2 : wT t = 3 + wF t.children := by
        cases t with
        | node v cs => simp
       simp only [dfsW_cons, wF_nil, wF_cons, wO_none, wO_some]
       omega)

/-- The full depth-first visit: `operator++` on the root pushes the
children of the root if non-empty. -/
def dfsVisit (t : Tree α) : List α :=
  t.val :: (if t.children.isEmpty then dfsRun [] else dfsRun [t.children])

/-! ### Declarative pre-order -/

mutual

/-- Modelled from the spec: pre-order — a node before its children,
child subtrees left to right, null slots skipped. -/
def preorderT : Tree α → List α
  | .node v cs => v :: preorderF cs

/-- Pre-order through a child slot. -/
def preorderO : Option (Tree α) → List α
  | none => []
  | some t => preorderT t

/-- Pre-order of a children sequence. -/
def preorderF : Forest α → List α
  | [] => []
  | c :: cs => preorderO c ++ preorderF cs

end

@[simp] theorem preorderT_node (v : α) (cs : Forest α) :
    preorderT (Tree.node v cs) = v :: preorderF cs := by
  rw [preorderT]

@[simp] theorem preorderO_none : preorderO (none : Option (Tree α)) = [] := by
  rw [preorderO]

@[simp] theorem preorderO_some (t : Tree α) :
    preorderO (some t) = preorderT t := by
  rw [preorderO]

@[simp] theorem preorderF_nil : preorderF ([] : Forest α) = [] := by
  rw [preorderF]

@[simp] theorem preorderF_cons (c : Option (Tree α)) (cs : Forest α) :
    preorderF (c :: cs) = preorderO c ++ preorderF cs := by
  rw [preorderF]

/-! ### In-order iteration

A stack frame of `in_order_iteration::iterator` is a
`(curr, next_child, end_child)` tuple; we embed it as
`(pending, rest)` where `pending` is the not-yet-yielded ancestor (null
once yielded / when the left-most slot was null) and `rest` is the
remaining sibling range `next_child .. end_child`. -/

/-- Embeds `find_leftmost_child`: descend along first-slot children, pushing a
frame per ancestor; stop at a node with no children or a null first
slot, which becomes the current node. -/
def findLeftmost :
    Tree α → List (Option (Tree α) × Forest α) →
      Tree α × List (Option (Tree α) × Forest α)
  | .node v [], stk => (.node v [], stk)
  | .node v (some l :: rest), stk =>
    findLeftmost l ((some (.node v (some l :: rest)), rest) :: stk)
  | .node v (none :: rest), stk => (.node v (none :: rest), (none, rest) :: stk)
termination_by t _ => nodesT t
decreasing_by
  simp
  omega

/-- Weight of an in-order iterator stack. -/
def inW : List (Option (Tree α) × Forest α) → Nat
  | [] => 0
  | (none, rest) :: stk => wF rest + 1 + inW stk
  | (some _, rest) :: stk => 2 + wF rest + 1 + inW stk

@[simp] theorem inW_nil : inW ([] : List (Option (Tree α) × Forest α)) = 0 := by
  rw [inW]

@[simp] theorem inW_cons_none (rest : Forest α)
    (stk : List (Option (Tree α) × Forest α)) :
    inW ((none, rest) :: stk) = wF rest + 1 + inW stk := by
  rw [inW]

@[simp] theorem inW_cons_some (c : Tree α) (rest : Forest α)
    (stk : List (Option (Tree α) × Forest α)) :
    inW ((some c, rest) :: stk) = 2 + wF rest + 1 + inW stk := by
  rw [inW]

/-- Descending via `findLeftmost` never grows the stack weight beyond the weight of the
tree it descends, leaving room for one yield. -/
theorem inW_findLeftmost (t : Tree α)
    (stk : List (Option (Tree α) × Forest α)) :
    inW (findLeftmost t stk).2 + 1 ≤ inW stk + wT t := by
  have key : ∀ (n : Nat) (t : Tree α)
      (stk : List (Option (Tree α) × Forest α)), nodesT t ≤ n →
      inW (findLeftmost t stk).2 + 1 ≤ inW stk + wT t := by
    intro n
    induction n with
    | zero =>
      intro t stk hle
      have := nodesT_pos t
      omega
    | succ n ih =>
      intro t stk hle
      obtain ⟨v, cs⟩ := t
      match cs with
      | [] =>
        simp only [findLeftmost]
        simp
      | some l :: rest =>
        have hcall := ih l ((some (Tree.node v (some l :: rest)), rest) :: stk)
          (by simp at hle; omega)
        simp only [findLeftmost] at hcall ⊢
        simp only [inW_cons_some, wT_node, wF_cons, wO_some] at hcall ⊢
        omega
      | none :: rest =>
        simp only [findLeftmost]
        simp
        omega
  exact key (nodesT t) t stk (Nat.le_refl _)

/-- The values the in-order iterator still yields given its stack: a
pending ancestor is yielded and marked traversed; otherwise the top
sibling range of the top frame is scanned past null slots, descending left-most
into the next present sibling; an exhausted frame is popped. -/
def inRun : List (Option (Tree α) × Forest α) → List α
  | [] => []
  | (some c, rest) :: stk => c.val :: inRun ((none, rest) :: stk)
  | (none, []) :: stk => inRun stk
  | (none, none :: rs) :: stk => inRun ((none, rs) :: stk)
  | (none, some t :: rs) :: stk =>
    (findLeftmost t ((none, rs) :: stk)).1.val ::
      inRun (findLeftmost t ((none, rs) :: stk)).2
termination_by stk => inW stk
decreasing_by
  · simp
  · simp
  · simp only [inW_cons_none, wF_cons, wO_none]
    omega
  · have h := inW_findLeftmost t ((none, rs) :: stk)
    simp only [inW_cons_none, wF_cons, wO_some] at h ⊢
    omega

/-- The full in-order visit: the constructor descends left-most from the
root, and the first yielded node is the one it stops at. -/
def inVisit (t : Tree α) : List α :=
  (findLeftmost t []).1.val :: inRun (findLeftmost t []).2

/-! ### Declarative in-order -/

mutual

/-- Modelled from the spec: in-order — the subtree of the first child slot,
then the node itself, then the remaining child subtrees in order,
null placeholders skipped. -/
def inorderT : Tree α → List α
  | .node v [] => [v]
  | .node v (c :: cs) => inorderO c ++ v :: inorderF cs

/-- In-order through a child slot. -/
def inorderO : Option (Tree α) → List α
  | none => []
  | some t => inorderT t

/-- In-order of a sequence of sibling subtrees. -/
def inorderF : Forest α → List α
  | [] => []
  | c :: cs => inorderO c ++ inorderF cs

end

@[simp] theorem inorderT_leaf (v : α) : inorderT (Tree.node v []) = [v] := by
  rw [inorderT]

@[simp] theorem inorderT_cons (v : α) (c : Option (Tree α)) (cs : Forest α) :
    inorderT (Tree.node v (c :: cs)) = inorderO c ++ v :: inorderF cs := by
  rw [inorderT]

@[simp] theorem inorderO_none : inorderO (none : Option (Tree α)) = [] := by
  rw [inorderO]

@[simp] theorem inorderO_some (t : Tree α) : inorderO (some t) = inorderT t := by
  rw [inorderO]

@[simp] theorem inorderF_nil : inorderF ([] : Forest α) = [] := by
  rw [inorderF]

@[simp] theorem inorderF_cons (c : Option (Tree α)) (cs : Forest α) :
    inorderF (c :: cs) = inorderO c ++ inorderF cs := by
  rw [inorderF]

/-! ## Traversal correctness -/

theorem levelOrder_unfold (ts : List (Tree α)) :
    levelOrder ts = ts.map Tree.val ++ levelOrder (childrenLevel ts) := by
  match ts with
  | [] => simp [levelOrder]
  | t :: ts => simp only [levelOrder]

/-- The breadth-first machine from any live state visits the remaining
level then the accumulated next level, level by level. -/
theorem bfsRun_eq (rem nl : List (Tree α)) (hne : rem ≠ []) :
    bfsRun rem nl
      = rem.map Tree.val ++ levelOrder (nl ++ childrenLevel rem) := by
  have key : ∀ n (rem nl : List (Tree α)), nodesL rem + nodesL nl ≤ n →
      rem ≠ [] →
      bfsRun rem nl
        = rem.map Tree.val ++ levelOrder (nl ++ childrenLevel rem) := by
    intro n
    induction n with
    | zero =>
      intro rem nl hle hne
      match rem with
      | [] => exact absurd rfl hne
      | t :: ts =>
        exfalso
        have := nodesT_pos t
        simp only [nodesL_cons] at hle
        omega
    | succ n ih =>
      intro rem nl hle hne
      match rem with
      | [] => exact absurd rfl hne
      | [t] =>
        simp only [bfsRun]
        by_cases h : nl ++ presentChildren t = []
        · rw [h]
          simp only [bfsRun]
          simp [h, levelOrder]
        · have hm : nodesL (nl ++ presentChildren t)
              + nodesL ([] : List (Tree α)) ≤ n := by
            have h1 := nodesL_presentChildren t
            have h2 : nodesT t = 1 + nodesF t.children := by
              cases t with
              | node v cs => simp
            simp only [nodesL_append, nodesL_cons, nodesL_nil] at *
            omega
          rw [ih (nl ++ presentChildren t) [] hm h]
          simp only [List.nil_append]
          rw [← levelOrder_unfold]
          simp
      | t :: r :: rs =>
        simp only [bfsRun]
        have hm : nodesL (r :: rs) + nodesL (nl ++ presentChildren t) ≤ n := by
          have h1 := nodesL_presentChildren t
          have h2 : nodesT t = 1 + nodesF t.children := by
            cases t with
            | node v cs => simp
          simp only [nodesL_append, nodesL_cons, nodesL_nil] at *
          omega
        rw [ih (r :: rs) (nl ++ presentChildren t) hm (by simp)]
        simp [List.append_assoc]
  exact key (nodesL rem + nodesL nl) rem nl (Nat.le_refl _) hne

/-- The breadth-first iteration of a tree is exactly the level-by-level
order. -/
theorem bfsVisit_eq_levelOrder (t : Tree α) : bfsVisit t = levelOrder [t] := by
  rw [bfsVisit, bfsRun_eq [t] [] (by simp), levelOrder_unfold [t]]
  simp

/-- The values a depth-first stack still owes: the pre-order of each
remaining slots of each frame, top frame first. -/
def stackPre : List (Forest α) → List α
  | [] => []
  | f :: stk => preorderF f ++ stackPre stk

@[simp] theorem stackPre_nil : stackPre ([] : List (Forest α)) = [] := by
  rw [stackPre]

@[simp] theorem stackPre_cons (f : Forest α) (stk : List (Forest α)) :
    stackPre (f :: stk) = preorderF f ++ stackPre stk := by
  rw [stackPre]

/-- The depth-first machine yields exactly the pre-order remainder of
its stack. -/
theorem dfsRun_eq (stk : List (Forest α)) : dfsRun stk = stackPre stk := by
  have key : ∀ n (stk : List (Forest α)), dfsW stk ≤ n →
      dfsRun stk = stackPre stk := by
    intro n
    induction n with
    | zero =>
      intro stk hle
      match stk with
      | [] => simp [dfsRun]
      | f :: stk =>
        exfalso
        simp only [dfsW_cons] at hle
        omega
    | succ n ih =>
      intro stk hle
      match stk with
      | [] => simp [dfsRun]
      | [] :: stk =>
        simp only [dfsRun]
        rw [ih stk (by simp at hle; omega)]
        simp
      | (none :: rest) :: stk =>
        simp only [dfsRun]
        rw [ih (rest :: stk) (by
          simp only [dfsW_cons, wF_cons, wO_none] at hle ⊢
          omega)]
        simp
      | (some t :: rest) :: stk =>
        obtain ⟨v, cs⟩ := t
        simp only [dfsRun]
        cases cs with
        | nil =>
          simp only [Tree.children_node, List.isEmpty_nil, if_true]
          rw [ih (rest :: stk) ?hm]
          case hm =>
            simp only [dfsW_cons, wF_cons, wO_some, wT_node, wF_nil] at hle ⊢
            omega
          simp
        | cons c cs =>
          simp only [Tree.children_node, List.isEmpty_cons, if_false]
          rw [ih ((c :: cs) :: rest :: stk) ?hm2]
          case hm2 =>
            simp only [dfsW_cons, wF_cons, wO_some, wT_node] at hle ⊢
            omega
          simp
  exact key (dfsW stk) stk (Nat.le_refl _)

/-- The depth-first iteration of a tree is exactly its pre-order. -/
theorem dfsVisit_eq_preorder (t : Tree α) : dfsVisit t = preorderT t := by
  obtain ⟨v, cs⟩ := t
  rw [dfsVisit]
  simp only [dfsRun_eq]
  cases cs with
  | nil => simp
  | cons c cs => simp

/-- The values an in-order frame still owes: the pending ancestor (if
any) then the in-order of the remaining siblings. -/
def frameVals : Option (Tree α) × Forest α → List α
  | (none, rest) => inorderF rest
  | (some c, rest) => c.val :: inorderF rest

/-- The values an in-order stack still owes, top frame first. -/
def stackVals : List (Option (Tree α) × Forest α) → List α
  | [] => []
  | f :: stk => frameVals f ++ stackVals stk

@[simp] theorem frameVals_none (rest : Forest α) :
    frameVals ((none : Option (Tree α)), rest) = inorderF rest := by
  rw [frameVals]

@[simp] theorem frameVals_some (c : Tree α) (rest : Forest α) :
    frameVals (some c, rest) = c.val :: inorderF rest := by
  rw [frameVals]

@[simp] theorem stackVals_nil :
    stackVals ([] : List (Option (Tree α) × Forest α)) = [] := by
  rw [stackVals]

@[simp] theorem stackVals_cons (f : Option (Tree α) × Forest α)
    (stk : List (Option (Tree α) × Forest α)) :
    stackVals (f :: stk) = frameVals f ++ stackVals stk := by
  rw [stackVals]

/-- Descending left-most turns the in-order of a tree into: first yield the
node reached, then the values owed by the frames pushed. -/
theorem findLeftmost_vals (t : Tree α)
    (stk : List (Option (Tree α) × Forest α)) :
    (findLeftmost t stk).1.val :: stackVals (findLeftmost t stk).2
      = inorderT t ++ stackVals stk := by
  have key : ∀ n (t : Tree α) (stk : List (Option (Tree α) × Forest α)),
      nodesT t ≤ n →
      (findLeftmost t stk).1.val :: stackVals (findLeftmost t stk).2
        = inorderT t ++ stackVals stk := by
    intro n
    induction n with
    | zero =>
      intro t stk hle
      have := nodesT_pos t
      omega
    | succ n ih =>
      intro t stk hle
      obtain ⟨v, cs⟩ := t
      match cs with
      | [] =>
        simp only [findLeftmost]
        simp
      | some l :: rest =>
        have hcall := ih l
          ((some (Tree.node v (some l :: rest)), rest) :: stk)
          (by simp at hle; omega)
        simp only [findLeftmost]
        rw [hcall]
        simp
      | none :: rest =>
        simp only [findLeftmost]
        simp
  exact key (nodesT t) t stk (Nat.le_refl _)

/-- The in-order machine yields exactly the values owed by its stack. -/
theorem inRun_eq (stk : List (Option (Tree α) × Forest α)) :
    inRun stk = stackVals stk := by
  have key : ∀ n (stk : List (Option (Tree α) × Forest α)), inW stk ≤ n →
      inRun stk = stackVals stk := by
    intro n
    induction n with
    | zero =>
      intro stk hle
      match stk with
      | [] => simp [inRun]
      | (none, rest) :: stk =>
        exfalso
        simp only [inW_cons_none] at hle
        omega
      | (some c, rest) :: stk =>
        exfalso
        simp only [inW_cons_some] at hle
        omega
    | succ n ih =>
      intro stk hle
      match stk with
      | [] => simp [inRun]
      | (some c, rest) :: stk =>
        simp only [inRun]
        rw [ih ((none, rest) :: stk) (by
          simp only [inW_cons_some, inW_cons_none] at hle ⊢
          omega)]
        simp
      | (none, []) :: stk =>
        simp only [inRun]
        rw [ih stk (by simp only [inW_cons_none] at hle; omega)]
        simp
      | (none, none :: rs) :: stk =>
        simp only [inRun]
        rw [ih ((none, rs) :: stk) (by
          simp only [inW_cons_none, wF_cons, wO_none] at hle ⊢
          omega)]
        simp
      | (none, some t :: rs) :: stk =>
        simp only [inRun]
        have hw := inW_findLeftmost t ((none, rs) :: stk)
        rw [ih (findLeftmost t ((none, rs) :: stk)).2 (by
          simp only [inW_cons_none, wF_cons, wO_some] at hle hw ⊢
          omega)]
        rw [findLeftmost_vals]
        simp
  exact key (inW stk) stk (Nat.le_refl _)

/-- The in-order iteration of a tree is exactly its declarative
in-order. -/
theorem inVisit_eq_inorder (t : Tree α) : inVisit t = inorderT t := by
  rw [inVisit, inRun_eq, findLeftmost_vals]
  simp

/-! ## Iterator equality

The `operator==` of each iterator is embedded on the reachable iterator
states.  Pointer identity of `_M_current` is abstracted as equality of
the traversal position it denotes: for the breadth-first iterator the
remaining segment of the current level, for the other two the current
node handle. -/

/-- Reachable state of `breadth_first_iteration::iterator`: the segment
`_M_current .. _M_this_level.end()` and `_M_next_level`.  The default
constructor leaves both vectors empty with `_M_current` at the end. -/
structure BfsIter (α : Type) where
  rem : List (Tree α)
  nextLevel : List (Tree α)

/-- Embeds `iterator::empty()`: `_M_current == _M_this_level.end()`. -/
def BfsIter.exhausted (i : BfsIter α) : Prop := i.rem = []

/-- A default-constructed breadth-first iterator. -/
def bfsIterDefault : BfsIter α := ⟨[], []⟩

/-- The breadth-first `operator==`:
`(empty() && rhs.empty()) || _M_current == rhs._M_current`. -/
def bfsIterEq (i j : BfsIter α) : Prop :=
  (i.exhausted ∧ j.exhausted) ∨ i.rem = j.rem

/-- Reachable state of `depth_first_iteration::iterator`. -/
structure DfsIter (α : Type) where
  current : Option (Tree α)
  stack : List (Forest α)

/-- Embeds `iterator::empty()`: `_M_current == nullptr`. -/
def DfsIter.exhausted (i : DfsIter α) : Prop := i.current = none

/-- A default-constructed depth-first iterator (`_M_current(nullptr)`). -/
def dfsIterDefault : DfsIter α := ⟨none, []⟩

/-- The depth-first `operator==`: `_M_current == rhs._M_current`. -/
def dfsIterEq (i j : DfsIter α) : Prop := i.current = j.current

/-- Reachable state of `in_order_iteration::iterator`. -/
structure InIter (α : Type) where
  current : Option (Tree α)
  stack : List (Option (Tree α) × Forest α)

/-- Embeds `iterator::empty()`: `_M_current == nullptr`. -/
def InIter.exhausted (i : InIter α) : Prop := i.current = none

/-- A default-constructed in-order iterator (`_M_current(nullptr)`). -/
def inIterDefault : InIter α := ⟨none, []⟩

/-- The in-order `operator==`: `_M_current == rhs._M_current`. -/
def inIterEq (i j : InIter α) : Prop := i.current = j.current

/-! ## `print_tree`

The output written to the `std::ostream` is modelled as the returned
`String`; `sh` renders a value as `operator<<` would.  `is_last` — the
address comparison `&child == &ptr->back()` — is positional: it holds
exactly for the last slot of the vector. -/

mutual

/-- Embeds `print_tree(ptr, os, prefix)`: a null handle prints `(null)` and a
newline and returns before the child loop; a non-null handle prints its
value and a newline, then renders each child. -/
def printTree (sh : α → String) : Option (Tree α) → String → String
  | none, _ => "(null)" ++ "\n"
  | some (.node v cs), pre => sh v ++ "\n" ++ printChildren sh cs pre

/-- The child loop of `print_tree`: prefix, a box-drawing branch glyph
(`└──` for the last slot, `├──` otherwise), a space, and the child
rendered with the extended prefix. -/
def printChildren (sh : α → String) : Forest α → String → String
  | [], _ => ""
  | [c], pre => pre ++ "└── " ++ printTree sh c (pre ++ "    ")
  | c :: c2 :: cs, pre =>
    pre ++ "├── " ++ printTree sh c (pre ++ "│   ")
      ++ printChildren sh (c2 :: cs) pre

end

/-! ## Example trees -/

/-- A root with children `[A, B, C]`, each having two children. -/
def exBfsTree : Tree Nat :=
  .node 0
    [some (.node 1 [some (.node 10 []), some (.node 11 [])]),
     some (.node 2 [some (.node 20 []), some (.node 21 [])]),
     some (.node 3 [some (.node 30 []), some (.node 31 [])])]

/-- The tree `1(2(4, 5), 3)`. -/
def exDfsTree : Tree Nat :=
  .node 1
    [some (.node 2 [some (.node 4 []), some (.node 5 [])]),
     some (.node 3 [])]

/-- The two-children-per-node tree `2(left=1, right=3)`. -/
def exInTree : Tree Nat :=
  .node 2 [some (.node 1 []), some (.node 3 [])]

/-- Iterating the pop round exactly once per slot empties a children
sequence. -/
theorem popStepF_iterate (cs : Forest α) : popStepF^[slotsF cs] cs = [] := by
  have key : ∀ n (cs : Forest α), slotsF cs = n → popStepF^[n] cs = [] := by
    intro n
    induction n with
    | zero =>
      intro cs h
      cases cs with
      | nil => rfl
      | cons c cs2 =>
        exfalso
        have : 1 ≤ slotsO c := by
          cases c with
          | none => simp
          | some t => simp
        simp only [slotsF_cons] at h
        omega
    | succ n ih =>
      intro cs h
      have hne : cs ≠ [] := by
        intro hc
        rw [hc] at h
        simp at h
      rw [Function.iterate_succ_apply]
      apply ih
      have := slotsF_popStepF cs hne
      omega
  exact key (slotsF cs) cs rfl

/-! ## The claims -/

/-- C1: for every finite tree node, `remove_children()` leaves the node
with `child_count() = 0`, its value untouched, and every descendant
released: only the node itself remains of the subtree. -/
theorem remove_children_destroys_all (t : Tree α) :
    (removeChildren t).childCount = 0 ∧
    nodesT (removeChildren t) = 1 ∧
    (removeChildren t).val = t.val := by
  rw [removeChildren]
  refine ⟨?_, ?_, rfl⟩
  · simp [Tree.childCount, drain_eq_nil]
  · simp [drain_eq_nil]

/-- C2: `remove_children` terminates on every finite tree: each round of
its nested loops pops exactly one slot, so the originally-targeted
children sequence is empty after exactly one round per owned slot, and
the embedded loop `drain` (defined by well-founded recursion on the slot
count) always reaches the empty sequence. -/
theorem remove_children_terminates (t : Tree α) :
    popStepF^[slotsF t.children] t.children = [] ∧
    drain t.children = [] :=
  ⟨popStepF_iterate t.children, drain_eq_nil t.children⟩

/-- C3: on a tree in which every node has at most two children, the
legacy static `destroy` terminates: after finitely many loop iterations
both locals are null, every node has been released, and the handle ends
in the same state (absent) that `remove_children()` followed by dropping
the root handle produces. -/
theorem destroy_binary_equiv_remove (t : Tree α) (h : binT t = true) :
    ∃ n, (destroyStep^[n] ⟨some t, none⟩).current = removeThenDrop t ∧
      (destroyStep^[n] ⟨some t, none⟩).parent = none ∧
      dTotal (destroyStep^[n] ⟨some t, none⟩) = 0 := by
  have hbin : binState (⟨some t, none⟩ : DState α) = true := by
    simp [h]
  have hnp : (⟨some t, none⟩ : DState α).current = none →
      (⟨some t, none⟩ : DState α).parent = none := by
    intro hx
    exact Option.noConfusion hx
  obtain ⟨n, hn⟩ := destroy_run_aux (dMeasure ⟨some t, none⟩)
    (⟨some t, none⟩ : DState α) rfl hbin hnp
  refine ⟨n, ?_, ?_, ?_⟩
  · rw [hn]; rfl
  · rw [hn]
  · rw [hn]; rfl

/-- Witness for C3 at the concrete binary tree `1(2(4, 5), 3)`. -/
theorem destroy_binary_equiv_remove_witness :
    binT exDfsTree = true ∧
    ∃ n, (destroyStep^[n] ⟨some exDfsTree, none⟩).current
        = removeThenDrop exDfsTree ∧
      (destroyStep^[n] ⟨some exDfsTree, none⟩).parent = none ∧
      dTotal (destroyStep^[n] ⟨some exDfsTree, none⟩) = 0 :=
  ⟨by decide, destroy_binary_equiv_remove exDfsTree (by decide)⟩

/-- C4: breadth-first iteration visits the root, then the present
children of the root left to right, then the present grandchildren
grouped by parent, and so on level by level (null slots skipped); in
particular, on a root with children `[A, B, C]` each having two
children, the order is root, A, B, C, then the grandchildren. -/
theorem breadth_first_level_order :
    (∀ (β : Type) (t : Tree β), bfsVisit t = levelOrder [t]) ∧
    bfsVisit exBfsTree = [0, 1, 2, 3, 10, 11, 20, 21, 30, 31] := by
  refine ⟨fun β t => bfsVisit_eq_levelOrder t, ?_⟩
  rw [bfsVisit_eq_levelOrder]
  simp [exBfsTree, levelOrder, presentChildren, Tree.val]

/-- C5: depth-first iteration yields a pre-order — each node before its
children, child subtrees left to right, null slots skipped; in
particular, on `1(2(4, 5), 3)` the order is `1, 2, 4, 5, 3`. -/
theorem depth_first_preorder :
    (∀ (β : Type) (t : Tree β), dfsVisit t = preorderT t) ∧
    dfsVisit exDfsTree = [1, 2, 4, 5, 3] := by
  refine ⟨fun β t => dfsVisit_eq_preorder t, ?_⟩
  rw [dfsVisit_eq_preorder]
  simp [exDfsTree, Tree.val]

/-- C6: in-order iteration yields, for every node, its first (left-most)
subtree of its first child slot, then the node itself, then the remaining child
subtrees in order with null placeholders skipped; in particular, on
`2(left=1, right=3)` the order is `1, 2, 3`. -/
theorem in_order_generalized :
    (∀ (β : Type) (t : Tree β), inVisit t = inorderT t) ∧
    inVisit exInTree = [1, 2, 3] := by
  refine ⟨fun β t => inVisit_eq_inorder t, ?_⟩
  rw [inVisit_eq_inorder]
  simp [exInTree, Tree.val]

/-- C7: for each iterator kind, a default-constructed iterator compares
equal exactly to the exhausted iterators (it is the canonical end
sentinel), and two iterators compare equal iff both are exhausted or
both reference the identical traversal position. -/
theorem iterator_end_sentinel :
    (∀ (β : Type) (i : BfsIter β),
      bfsIterEq bfsIterDefault i ↔ i.exhausted) ∧
    (∀ (β : Type) (i j : BfsIter β),
      bfsIterEq i j ↔ ((i.exhausted ∧ j.exhausted) ∨ i.rem = j.rem)) ∧
    (∀ (β : Type) (i : DfsIter β),
      dfsIterEq dfsIterDefault i ↔ i.exhausted) ∧
    (∀ (β : Type) (i j : DfsIter β),
      dfsIterEq i j ↔
        ((i.exhausted ∧ j.exhausted) ∨ i.current = j.current)) ∧
    (∀ (β : Type) (i : InIter β),
      inIterEq inIterDefault i ↔ i.exhausted) ∧
    (∀ (β : Type) (i j : InIter β),
      inIterEq i j ↔
        ((i.exhausted ∧ j.exhausted) ∨ i.current = j.current)) := by
  refine ⟨?_, ?_, ?_, ?_, ?_, ?_⟩
  · intro β i
    simp [bfsIterEq, bfsIterDefault, BfsIter.exhausted, eq_comm]
  · intro β i j
    constructor
    · intro h
      rcases h with h | h
      · exact Or.inl h
      · exact Or.inr h
    · intro h
      rcases h with ⟨h1, h2⟩ | h
      · exact Or.inl ⟨h1, h2⟩
      · exact Or.inr h
  · intro β i
    simp [dfsIterEq, dfsIterDefault, DfsIter.exhausted, eq_comm]
  · intro β i j
    constructor
    · intro h
      exact Or.inr h
    · intro h
      rcases h with ⟨h1, h2⟩ | h
      · rw [dfsIterEq, h1, h2]
      · exact h
  · intro β i
    simp [inIterEq, inIterDefault, InIter.exhausted, eq_comm]
  · intro β i j
    constructor
    · intro h
      exact Or.inr h
    · intro h
      rcases h with ⟨h1, h2⟩ | h
      · rw [inIterEq, h1, h2]
      · exact h

/-- C8: under the stated preconditions the partial container operations
are in bounds: for `i < child_count()`, `child(i)` is a well-defined
access returning the handle at position `i`; on a non-empty children
sequence `pop_back()` removes exactly the last handle, keeping the
others. -/
theorem child_and_pop_in_bounds (t : Tree α) (i : Nat)
    (hi : i < t.childCount) (hne : t.children ≠ []) :
    t.childAt i = some (t.children.get ⟨i, hi⟩) ∧
    (t.popBack).children ++ [t.children.getLast hne] = t.children ∧
    (t.popBack).children.length + 1 = t.childCount := by
  refine ⟨?_, ?_, ?_⟩
  · rw [Tree.childAt]
    exact List.getElem?_eq_getElem hi
  · rw [Tree.popBack]
    simp only [Tree.children_node]
    exact List.dropLast_append_getLast hne
  · rw [Tree.popBack, Tree.childCount]
    simp only [Tree.children_node, List.length_dropLast]
    have : 0 < t.children.length := List.length_pos.mpr hne
    omega

/-- Witness for C8 at `2(left=1, right=3)`, index 1. -/
theorem child_and_pop_in_bounds_witness :
    1 < exInTree.childCount ∧ exInTree.children ≠ [] ∧
    (exInTree.childAt 1
        = some (exInTree.children.get ⟨1, by decide⟩) ∧
      (exInTree.popBack).children
          ++ [exInTree.children.getLast (List.cons_ne_nil _ _)]
        = exInTree.children ∧
      (exInTree.popBack).children.length + 1 = exInTree.childCount) :=
  ⟨by decide, List.cons_ne_nil _ _,
    child_and_pop_in_bounds exInTree 1 (by decide) (List.cons_ne_nil _ _)⟩

/-- C9: container mutations preserve the children order and touch
nothing else: `push_back(h)` appends `h` after the existing children and
leaves the value unchanged; `pop_back()` drops exactly the last slot,
leaving the value and every remaining slot unchanged. -/
theorem push_pop_frame (t : Tree α) (p : Option (Tree α)) :
    (t.pushBack p).val = t.val ∧
    (t.pushBack p).children = t.children ++ [p] ∧
    (t.popBack).val = t.val ∧
    (t.popBack).children = t.children.dropLast ∧
    (∀ i : Nat, i + 1 < t.childCount → (t.popBack).childAt i = t.childAt i) ∧
    (∀ i : Nat, i < t.childCount → (t.pushBack p).childAt i = t.childAt i) := by
  refine ⟨rfl, rfl, rfl, rfl, ?_, ?_⟩
  · intro i hi
    rw [Tree.popBack, Tree.childAt, Tree.childAt]
    simp only [Tree.children_node]
    rw [Tree.childCount] at hi
    rw [List.getElem?_eq_getElem (by simp; omega),
      List.getElem?_eq_getElem (by omega)]
    congr 1
    exact List.getElem_dropLast t.children i (by simp; omega)
  · intro i hi
    rw [Tree.pushBack, Tree.childAt, Tree.childAt]
    simp only [Tree.children_node]
    rw [Tree.childCount] at hi
    rw [List.getElem?_append_left hi]

/-- Witness for C9 at `2(left=1, right=3)` with a null slot pushed,
frame conditions instantiated at index 0. -/
theorem push_pop_frame_witness :
    (exInTree.pushBack none).val = exInTree.val ∧
    (exInTree.pushBack none).children = exInTree.children ++ [none] ∧
    (exInTree.popBack).val = exInTree.val ∧
    (exInTree.popBack).children = exInTree.children.dropLast ∧
    (0 + 1 < exInTree.childCount ∧
      (exInTree.popBack).childAt 0 = exInTree.childAt 0) ∧
    (0 < exInTree.childCount ∧
      (exInTree.pushBack none).childAt 0 = exInTree.childAt 0) :=
  ⟨(push_pop_frame exInTree none).1,
    (push_pop_frame exInTree none).2.1,
    (push_pop_frame exInTree none).2.2.1,
    (push_pop_frame exInTree none).2.2.2.1,
    ⟨by decide, (push_pop_frame exInTree none).2.2.2.2.1 0 (by decide)⟩,
    ⟨by decide, (push_pop_frame exInTree none).2.2.2.2.2 0 (by decide)⟩⟩

/-- C10: `print_tree` on a null handle writes exactly `(null)` and a
newline, independently of the prefix, and returns without rendering any
children; on a non-null handle it writes the value of the node and a newline
before rendering the children. -/
theorem print_tree_null_and_value (sh : α → String) (t : Tree α)
    (pre : String) :
    printTree sh none pre = "(null)\n" ∧
    printTree sh (some t) pre
      = sh t.val ++ "\n" ++ printChildren sh t.children pre := by
  constructor
  · rw [printTree]
    rfl
  · obtain ⟨v, cs⟩ := t
    rw [printTree]
    rfl

end Nvwa
